import Mathlib

/-!
Verification of the document-level TOML grammar driver
(`src/toml_edit/parser/document.rs`): the state machine that sequences
top-level expressions, accumulates decoration text, resolves the active
table path, enforces the no-duplicate-key invariant and assembles the
document tree.

Text is modelled as `List Char`.  The collaborators that live outside the
given source file (trivia/key/value/table-header sub-parsers, the tree data
types, `descend_path`) are modelled from the spec; every such definition says
so in its doc comment.  Definitions translated directly from the source keep
the source's names (`parse`, `on_ws`, `on_comment`, `on_keyval`,
`parse_keyval`).
-/

namespace TomlEd

/-- Input and captured decoration text, as a character list. -/
abbrev Str := List Char

/-- Modelled from the spec: inline whitespace characters (space, tab) —
the `ws()` trivia class; line terminators are separate. -/
def isWsChar (c : Char) : Bool := c = ' ' || c = '\t'

/-- Modelled from the spec: a bare-key character for the external key
parser (ASCII letters, digits, `_`, `-`). -/
def isBareKeyChar (c : Char) : Bool :=
  ('a' ≤ c && c ≤ 'z') || ('A' ≤ c && c ≤ 'Z') || ('0' ≤ c && c ≤ '9') ||
    c = '_' || c = '-'

/-- Leading/trailing decoration attached to an element
(`decor.prefix` / `decor.suffix` in the source; `prefix`/`suffix` are
reserved here, so the fields are `pre`/`suf`). -/
structure Decor where
  pre : Str
  suf : Str

/-- `Repr`: raw source text of a key together with its decoration
(`Repr::new(prefix, raw, suffix)` in the source). -/
structure Repr where
  decor : Decor
  raw : Str

/-- Modelled from the spec: the payload produced by the external value
parser.  The claims only exercise integer literals, the one value form the
modelled grammar emits. -/
inductive TomlValue where
  | int (n : Int)

/-- A value node carrying its own leading/trailing decoration. -/
structure Value where
  val : TomlValue
  d : Decor

/-- `decorated(v, prefix, suffix)` from `formatted.rs` (not under the given
source; modelled from the spec: the value's leading decoration is the
whitespace after the separator, its trailing decoration the end-of-line
text). -/
def decorated (v : TomlValue) (pre suf : Str) : Value := ⟨v, ⟨pre, suf⟩⟩

/-- `Item`: tagged variant over value / sub-table / absent placeholder.
A table is its ordered entry list: (cooked key, key `Repr`, item), source
order preserved.  The array-of-tables variant of the source is omitted:
the modelled header grammar (standard tables only) never builds one. -/
inductive Item where
  | value (v : Value) : Item
  | table (items : List (Str × Repr × Item)) : Item
  | none : Item

/-- An ordered table: entries in insertion order. -/
abbrev Table := List (Str × Repr × Item)

/-- `TableKeyValue`: key representation plus item, as produced by
`parse_keyval`. -/
structure TableKeyValue where
  key : Repr
  value : Item

/-- `Document`: root table plus the trailing-decoration string. -/
structure Document where
  root : Table
  trailing : Str

/-- The parser state (`TomlParser`): document under construction and the
active table path. -/
structure TomlParser where
  document : Document
  current_table_path : List Str

/-- Semantic errors (`CustomError`); the driver only raises
`DuplicateKey { key, table }`. -/
inductive CustomError where
  | duplicateKey (key : Str) (table : Str)

/-- `TomlError`: positioned diagnostics.  `syntaxAt` for grammar
mismatches, `customAt` for semantic errors raised through the same
channel, `unparsed` for the residual-input failure
(`TomlError::from_unparsed`).  Positions are byte offsets into the
input. -/
inductive TomlError where
  | syntaxAt (pos : Nat)
  | customAt (pos : Nat) (e : CustomError)
  | unparsed (pos : Nat)

/-- The overall outcome of `parse`.  `panicked` models the process abort
from `.expect("the table path is valid; qed")`, which is not a returned
error. -/
inductive ParseOutcome where
  | ok (d : Document)
  | err (e : TomlError)
  | panicked

/-- Failure payload inside the grammar loop. -/
inductive PErr where
  | syn
  | cust (e : CustomError)

/-- Result of trying the expression alternatives once. -/
inductive StepOut where
  | noMatch
  | stepOk (st : TomlParser) (rest : Str)
  | stepFail (rest : Str) (e : PErr)
  | stepPanic

/-- Result of the `skip_many1` expression loop. -/
inductive LoopOut where
  | okL (st : TomlParser) (rest : Str)
  | failL (rest : Str) (e : PErr)
  | panicL

/-! ## Table operations -/

/-- Look up the item stored under an exact key (`Table::contains_key` /
entry lookup; first match, though keys are unique by invariant). -/
def lookupItem : Table → Str → Option Item
  | [], _ => none
  | (k', _, it) :: rest, k => if k' = k then some it else lookupItem rest k

/-- `contains_key`: exact-string membership. -/
def containsKey (t : Table) (k : Str) : Bool := (lookupItem t k).isSome

/-- Replace the item stored under `k`, keeping the entry's position and key
`Repr`; identity when `k` is absent. -/
def setItem : Table → Str → Item → Table
  | [], _, _ => []
  | (k', r, it) :: rest, k, v =>
      if k' = k then (k', r, v) :: rest else (k', r, it) :: setItem rest k v

/-- Modelled from the spec: `descend_path` — navigate from the tree root
along the active path's key segments to the addressed table; `none` when
some segment is missing or not a table (the caller's invariant-violation
case). -/
def descend_path (t : Table) : List Str → Option Table
  | [] => some t
  | k :: rest =>
      match lookupItem t k with
      | some (Item.table t') => descend_path t' rest
      | _ => none

/-- Functional rendering of the in-place mutation of the table addressed by
the path: rebuild the root with `f` applied to that table.  Identity on an
unresolvable path (`on_keyval` only uses it after `descend_path`
succeeded). -/
def replaceAtPath (t : Table) : List Str → (Table → Table) → Table
  | [], f => f t
  | k :: rest, f =>
      match lookupItem t k with
      | some (Item.table t') => setItem t k (Item.table (replaceAtPath t' rest f))
      | _ => t

/-! ## Trivia and expression sub-parsers -/

/-- Modelled from the spec: `ws()` — split off the longest run of inline
whitespace (always succeeds, possibly empty). -/
def ws (s : Str) : Str × Str := (s.takeWhile isWsChar, s.dropWhile isWsChar)

/-- Modelled from the spec: `comment()` — `#` followed by every character
up to (not including) the line terminator. -/
def comment : Str → Option (Str × Str)
  | [] => none
  | c :: cs =>
      if c = '#' then
        some ('#' :: cs.takeWhile (fun x => x != '\n'),
              cs.dropWhile (fun x => x != '\n'))
      else none

/-- Modelled from the spec: `line_ending()` — a newline, or end of
input. -/
def line_ending : Str → Option (Str × Str)
  | [] => some ([], [])
  | c :: cs => if c = '\n' then some (['\n'], cs) else none

/-- Modelled from the spec: `line_trailing()` — trailing content through
end-of-line (inline whitespace, an optional comment, then the line
terminator), captured including the terminator. -/
def line_trailing (s : Str) : Option (Str × Str) :=
  let w := (ws s).1
  let r1 := (ws s).2
  match comment r1 with
  | some (c, r2) =>
      match line_ending r2 with
      | some (e, rest) => some (w ++ c ++ e, rest)
      | none => none
  | none =>
      match line_ending r1 with
      | some (e, rest) => some (w ++ e, rest)
      | none => none

/-- Modelled from the spec: the external key parser — consume one bare key
token, returning its raw source text and cooked string value (equal for
bare keys). -/
def key (s : Str) : Option ((Str × Str) × Str) :=
  let raw := s.takeWhile isBareKeyChar
  if raw.isEmpty then none else some ((raw, raw), s.dropWhile isBareKeyChar)

/-- Numeric value of a digit run. -/
def digitsVal (ds : Str) : Int :=
  ds.foldl (fun n c => 10 * n + Int.ofNat (c.toNat - 48)) 0

/-- Modelled from the spec: the external value parser — consume one value
expression (integer literals in the modelled grammar). -/
def value (s : Str) : Option (TomlValue × Str) :=
  let ds := s.takeWhile Char.isDigit
  if ds.isEmpty then none
  else some (TomlValue.int (digitsVal ds), s.dropWhile Char.isDigit)

/-- `parse_keyval`: `(key, ws), '=', (ws, value, line_trailing)`, mapped to
the cooked key and a `TableKeyValue` whose key `Repr` is
`Repr::new("", raw, ws-before-separator)` and whose value is
`decorated(v, ws-after-separator, line-trailing-text)`. -/
def parse_keyval (s : Str) : Option ((Str × TableKeyValue) × Str) :=
  match key s with
  | none => none
  | some ((raw, k), r1) =>
      let w1 := (ws r1).1
      match (ws r1).2 with
      | [] => none
      | c :: r3 =>
          if c = '=' then
            let w2 := (ws r3).1
            match value (ws r3).2 with
            | none => none
            | some (v, r5) =>
                match line_trailing r5 with
                | none => none
                | some (suf, rest) =>
                    some ((k, { key := { decor := { pre := [], suf := w1 }, raw := raw },
                                value := Item.value (decorated v w2 suf) }), rest)
          else none

/-- Modelled from the spec: the dotted key sequence of a table header —
key segments separated by `.` with optional surrounding whitespace.  Fuel
bounds the recursion; callers pass more fuel than characters remain. -/
def parseDotKeys : Nat → Str → Option (List Str × Str)
  | 0, _ => none
  | fuel + 1, s =>
      match key s with
      | none => none
      | some ((_, k), r1) =>
          match (ws r1).2 with
          | [] => some ([k], [])
          | c :: r3 =>
              if c = '.' then
                match parseDotKeys fuel (ws r3).2 with
                | some (ks, rest) => some (k :: ks, rest)
                | none => none
              else some ([k], c :: r3)

/-- Modelled from the spec: the external table-header parser's grammar —
`[`, optional whitespace, dotted keys, `]`, then line trailing (captured
including the terminator).  Returns the path, the header's trailing text
and the rest of the input. -/
def parseTableHeader (s : Str) : Option (List Str × Str × Str) :=
  match s with
  | [] => none
  | c :: r1 =>
      if c = '[' then
        let r2 := (ws r1).2
        match parseDotKeys (r2.length + 1) r2 with
        | some (ks, r3) =>
            match r3 with
            | [] => none
            | c2 :: r4 =>
                if c2 = ']' then
                  match line_trailing r4 with
                  | some (suf, rest) => some (ks, suf, rest)
                  | none => none
                else none
        | none => none
      else none

/-! ## Handlers (the driver's callbacks) -/

/-- `on_ws`: append skipped whitespace to the decoration buffer
(`self.document.trailing`). -/
def TomlParser.on_ws (st : TomlParser) (w : Str) : TomlParser :=
  { st with document := { st.document with trailing := st.document.trailing ++ w } }

/-- `on_comment`: append the comment text and its line ending to the
decoration buffer. -/
def TomlParser.on_comment (st : TomlParser) (c e : Str) : TomlParser :=
  { st with document := { st.document with trailing := st.document.trailing ++ c ++ e } }

/-- `on_keyval`: take the decoration buffer (clearing it) and prepend it to
the key's leading decoration; resolve the table addressed by the active
path (`none` result models the `.expect("the table path is valid; qed")`
abort); reject a duplicate key with `CustomError::DuplicateKey` whose
table field is the `"<unknown>"` placeholder; otherwise insert the entry
at the end of the resolved table. -/
def TomlParser.on_keyval (st : TomlParser) (k : Str) (kv : TableKeyValue) :
    Option (Except CustomError TomlParser) :=
  let pfx := st.document.trailing
  let kv' : TableKeyValue :=
    { kv with key := { kv.key with decor := { kv.key.decor with pre := pfx ++ kv.key.decor.pre } } }
  match descend_path st.document.root st.current_table_path with
  | none => none
  | some tbl =>
      if containsKey tbl k then
        some (Except.error (CustomError.duplicateKey k ("<unknown>".toList)))
      else
        let root' := replaceAtPath st.document.root st.current_table_path
          (fun u => u ++ [(k, kv'.key, kv'.value)])
        some (Except.ok { st with document := { root := root', trailing := [] } })

/-- Modelled from the spec: create the table addressed by a header path,
building missing intermediate tables; an existing final segment or a
non-table intermediate segment is a semantic (duplicate-key) error.  The
drained decoration `d` becomes the created entry's key decoration. -/
def ensureTablePath (t : Table) : List Str → Decor → Except CustomError Table
  | [], _ => Except.ok t
  | k :: rest, d =>
      match rest with
      | [] =>
          if containsKey t k then
            Except.error (CustomError.duplicateKey k ("<unknown>".toList))
          else Except.ok (t ++ [(k, ⟨d, k⟩, Item.table [])])
      | _ :: _ =>
          match lookupItem t k with
          | some (Item.table t') =>
              (ensureTablePath t' rest d).map (fun u => setItem t k (Item.table u))
          | some _ => Except.error (CustomError.duplicateKey k ("<unknown>".toList))
          | none =>
              (ensureTablePath [] rest d).map
                (fun u => t ++ [(k, ⟨⟨[], []⟩, k⟩, Item.table u)])

/-- Modelled from the spec: the table-header handler — drain the
decoration buffer (it becomes the new table entry's leading decoration,
with the header's trailing text as its trailing decoration), create the
table node with intermediates as needed, and set the active path. -/
def TomlParser.on_table (st : TomlParser) (path : List Str) (suf : Str) :
    Except CustomError TomlParser :=
  let pfx := st.document.trailing
  match ensureTablePath st.document.root path ⟨pfx, suf⟩ with
  | Except.error e => Except.error e
  | Except.ok root' =>
      Except.ok { document := { root := root', trailing := [] },
                  current_table_path := path }

/-! ## The driver -/

/-- One round of the expression alternatives, in the source's fixed
priority order: comment, key/value pair, table header, bare newline.  The
alternatives are keyed by disjoint first characters, matching the
grammar's first-token dispatch; a first token that commits an alternative
which then fails is a (consumed) syntax failure, a first token matching no
alternative is `noMatch` (the loop's stop condition). -/
def expr_step (st : TomlParser) (s : Str) : StepOut :=
  match s with
  | [] => StepOut.noMatch
  | c :: cs =>
      if c = '#' then
        match comment (c :: cs) with
        | some (com, r1) =>
            match line_ending r1 with
            | some (e, r2) => StepOut.stepOk (st.on_comment com e) r2
            | none => StepOut.stepFail r1 PErr.syn
        | none => StepOut.stepFail (c :: cs) PErr.syn
      else if c = '\n' then
        StepOut.stepOk (st.on_ws ['\n']) cs
      else if c = '[' then
        match parseTableHeader (c :: cs) with
        | some (path, suf, rest) =>
            match st.on_table path suf with
            | Except.error e => StepOut.stepFail rest (PErr.cust e)
            | Except.ok st' => StepOut.stepOk st' rest
        | none => StepOut.stepFail (c :: cs) PErr.syn
      else if isBareKeyChar c then
        match parse_keyval (c :: cs) with
        | some ((k, kv), rest) =>
            match st.on_keyval k kv with
            | some (Except.error e) => StepOut.stepFail rest (PErr.cust e)
            | some (Except.ok st') => StepOut.stepOk st' rest
            | none => StepOut.stepPanic
        | none => StepOut.stepFail (c :: cs) PErr.syn
      else StepOut.noMatch

/-- The `skip_many1(choice(...).skip(parse_ws))` loop: repeat expression
alternatives, each followed by a whitespace skip into the buffer; stop
successfully once no alternative matches, provided at least one iteration
matched (`cnt` counts iterations); a first-iteration mismatch is the
grammar failure of the enclosing `choice`.  Fuel exceeds the input length,
and every iteration consumes at least one character. -/
def run_exprs : Nat → TomlParser → Str → Nat → LoopOut
  | 0, _, s, _ => LoopOut.failL s PErr.syn
  | fuel + 1, st, s, cnt =>
      match expr_step st s with
      | StepOut.noMatch => if cnt = 0 then LoopOut.failL s PErr.syn else LoopOut.okL st s
      | StepOut.stepPanic => LoopOut.panicL
      | StepOut.stepFail r e => LoopOut.failL r e
      | StepOut.stepOk st' r =>
          run_exprs fuel (st'.on_ws (ws r).1) (ws r).2 (cnt + 1)

/-- The parser state after the initial `parse_ws`: default state with the
leading whitespace in the buffer. -/
def initState (s : Str) : TomlParser :=
  TomlParser.on_ws ⟨⟨[], []⟩, []⟩ (s.takeWhile isWsChar)

/-- Translate a loop failure into a positioned `TomlError`
(`TomlError::new(e, s)`): the position is the offset of the failure's
remaining input. -/
def mkError (s r : Str) : PErr → TomlError
  | PErr.syn => TomlError.syntaxAt (s.length - r.length)
  | PErr.cust e => TomlError.customAt (s.length - r.length) e

/-- `TomlParser::parse`: initial whitespace skip, then
`choice((eof, skip_many1(...)))`; on grammar-loop success with unconsumed
input left, fail with the residual-input error positioned at the first
unconsumed character (`TomlError::from_unparsed`); otherwise return the
assembled document. -/
def parse (s : Str) : ParseOutcome :=
  let st1 := initState s
  let r1 := s.dropWhile isWsChar
  match r1 with
  | [] => ParseOutcome.ok st1.document
  | _ :: _ =>
      match run_exprs (r1.length + 1) st1 r1 0 with
      | LoopOut.panicL => ParseOutcome.panicked
      | LoopOut.failL r e => ParseOutcome.err (mkError s r e)
      | LoopOut.okL st2 rest =>
          if rest.isEmpty then ParseOutcome.ok st2.document
          else ParseOutcome.err (TomlError.unparsed (s.length - rest.length))

/-! ## Auxiliary predicates for the verification -/

/-- The active-path invariant: the active table path resolves to a table in
the current root (what table-header handling is responsible for
establishing). -/
def PathOk (st : TomlParser) : Prop :=
  ∃ t, descend_path st.document.root st.current_table_path = some t

/-- Character scan for decoration-only input: whitespace, line terminators
and comments; the flag records being inside a comment body (where any
character other than the terminator is allowed). -/
def triviaRun : Bool → Str → Bool
  | _, [] => true
  | true, c :: cs => if c = '\n' then triviaRun false cs else triviaRun true cs
  | false, c :: cs =>
      if isWsChar c then triviaRun false cs
      else if c = '\n' then triviaRun false cs
      else if c = '#' then triviaRun true cs
      else false

/-- Input consisting only of whitespace, comments and line terminators (no
key/value pairs, no table headers). -/
def triviaOnly (s : Str) : Bool := triviaRun false s

/-! ## Helper lemmas: table operations -/

theorem lookupItem_setItem_self (t : Table) (k : Str) (v : Item) (it : Item)
    (h : lookupItem t k = some it) : lookupItem (setItem t k v) k = some v := by
  induction t with
  | nil => simp [lookupItem] at h
  | cons e rest ih =>
      obtain ⟨k', r, it'⟩ := e
      by_cases hk : k' = k
      · subst hk; simp [lookupItem, setItem]
      · simp only [lookupItem, setItem, if_neg hk] at h ⊢
        exact ih h

theorem lookupItem_none_iff (t : Table) (k : Str) :
    containsKey t k = false ↔ lookupItem t k = none := by
  unfold containsKey
  cases lookupItem t k <;> simp

theorem lookupItem_append_fresh (t : Table) (k : Str) (r : Repr) (it : Item)
    (h : containsKey t k = false) : lookupItem (t ++ [(k, r, it)]) k = some it := by
  induction t with
  | nil => simp [lookupItem]
  | cons e rest ih =>
      obtain ⟨k', r', it'⟩ := e
      rw [lookupItem_none_iff] at h
      by_cases hk : k' = k
      · simp only [lookupItem, hk, if_pos] at h
        exact absurd h (by simp)
      · simp only [lookupItem, List.cons_append, if_neg hk] at h ⊢
        exact ih ((lookupItem_none_iff rest k).2 h)

theorem descend_replaceAtPath (p : List Str) (t u : Table) (f : Table → Table)
    (h : descend_path t p = some u) :
    descend_path (replaceAtPath t p f) p = some (f u) := by
  induction p generalizing t u with
  | nil =>
      unfold descend_path at h
      cases h
      rfl
  | cons k rest ih =>
      unfold descend_path at h
      unfold descend_path replaceAtPath
      cases hl : lookupItem t k with
      | none => rw [hl] at h; simp at h
      | some it =>
          cases it with
          | table t' =>
              rw [hl] at h
              simp only at h
              rw [lookupItem_setItem_self t k _ _ hl]
              simp only
              exact ih t' u h
          | value v => rw [hl] at h; simp at h
          | none => rw [hl] at h; simp at h

theorem ensureTablePath_descend (p : List Str) (t u : Table) (d : Decor)
    (h : ensureTablePath t p d = Except.ok u) : ∃ w, descend_path u p = some w := by
  induction p generalizing t u with
  | nil => exact ⟨u, rfl⟩
  | cons k rest ih =>
      cases rest with
      | nil =>
          unfold ensureTablePath at h
          by_cases hc : containsKey t k
          · simp [hc] at h
          · simp only [hc, if_neg, Bool.false_eq_true] at h
            cases h
            refine ⟨[], ?_⟩
            unfold descend_path
            rw [lookupItem_append_fresh t k _ _ (by simpa using hc)]
            rfl
      | cons k2 rest2 =>
          unfold ensureTablePath at h
          cases hl : lookupItem t k with
          | none =>
              rw [hl] at h
              simp only at h
              cases he : ensureTablePath [] (k2 :: rest2) d with
              | error e => rw [he] at h; simp [Except.map] at h
              | ok u' =>
                  rw [he] at h
                  simp only [Except.map] at h
                  cases h
                  obtain ⟨w, hw⟩ := ih [] u' he
                  refine ⟨w, ?_⟩
                  unfold descend_path
                  rw [lookupItem_append_fresh t k _ _ ((lookupItem_none_iff t k).2 hl)]
                  exact hw
          | some it =>
              cases it with
              | table t' =>
                  rw [hl] at h
                  simp only at h
                  cases he : ensureTablePath t' (k2 :: rest2) d with
                  | error e => rw [he] at h; simp [Except.map] at h
                  | ok u' =>
                      rw [he] at h
                      simp only [Except.map] at h
                      cases h
                      obtain ⟨w, hw⟩ := ih t' u' he
                      refine ⟨w, ?_⟩
                      unfold descend_path
                      rw [lookupItem_setItem_self t k _ _ hl]
                      exact hw
              | value v => rw [hl] at h; simp at h
              | none => rw [hl] at h; simp at h

/-! ## Helper lemmas: the insertion handlers -/

theorem on_keyval_none_of_descend_none (st : TomlParser) (k : Str) (kv : TableKeyValue)
    (h : descend_path st.document.root st.current_table_path = none) :
    st.on_keyval k kv = none := by
  simp [TomlParser.on_keyval, h]

theorem on_keyval_dup (st : TomlParser) (k : Str) (kv : TableKeyValue) (tbl : Table)
    (hd : descend_path st.document.root st.current_table_path = some tbl)
    (hc : containsKey tbl k = true) :
    st.on_keyval k kv =
      some (Except.error (CustomError.duplicateKey k ("<unknown>".toList))) := by
  simp [TomlParser.on_keyval, hd, hc]

theorem on_keyval_ok (st : TomlParser) (k : Str) (kv : TableKeyValue) (tbl : Table)
    (hd : descend_path st.document.root st.current_table_path = some tbl)
    (hc : containsKey tbl k = false) :
    st.on_keyval k kv = some (Except.ok
      { st with document :=
        { root := replaceAtPath st.document.root st.current_table_path
            (fun u => u ++ [(k, { decor := { pre := st.document.trailing ++ kv.key.decor.pre,
                                             suf := kv.key.decor.suf },
                                  raw := kv.key.raw }, kv.value)]),
          trailing := [] } }) := by
  simp [TomlParser.on_keyval, hd, hc]

theorem on_keyval_error_shape (st : TomlParser) (k : Str) (kv : TableKeyValue)
    (e : CustomError) (h : st.on_keyval k kv = some (Except.error e)) :
    e = CustomError.duplicateKey k ("<unknown>".toList) := by
  cases hd : descend_path st.document.root st.current_table_path with
  | none => rw [on_keyval_none_of_descend_none st k kv hd] at h; cases h
  | some tbl =>
      by_cases hc : containsKey tbl k = true
      · rw [on_keyval_dup st k kv tbl hd hc] at h
        simp at h
        exact h.symm
      · rw [on_keyval_ok st k kv tbl hd (by simpa using hc)] at h
        simp at h

theorem on_keyval_ok_inv (st st' : TomlParser) (k : Str) (kv : TableKeyValue)
    (h : st.on_keyval k kv = some (Except.ok st')) :
    st'.document.trailing = [] ∧ st'.current_table_path = st.current_table_path ∧
    ∃ tbl, descend_path st.document.root st.current_table_path = some tbl ∧
      containsKey tbl k = false ∧
      descend_path st'.document.root st'.current_table_path =
        some (tbl ++ [(k, { decor := { pre := st.document.trailing ++ kv.key.decor.pre,
                                       suf := kv.key.decor.suf },
                            raw := kv.key.raw }, kv.value)]) := by
  cases hd : descend_path st.document.root st.current_table_path with
  | none => rw [on_keyval_none_of_descend_none st k kv hd] at h; cases h
  | some tbl =>
      by_cases hc : containsKey tbl k = true
      · rw [on_keyval_dup st k kv tbl hd hc] at h; simp at h
      · have hc2 : containsKey tbl k = false := by simpa using hc
        rw [on_keyval_ok st k kv tbl hd hc2] at h
        simp only [Option.some.injEq, Except.ok.injEq] at h
        subst h
        refine ⟨rfl, rfl, tbl, rfl, hc2, descend_replaceAtPath _ _ _ _ hd⟩

theorem on_keyval_pathOk (st st' : TomlParser) (k : Str) (kv : TableKeyValue)
    (h : st.on_keyval k kv = some (Except.ok st')) : PathOk st' := by
  obtain ⟨-, -, tbl, -, -, hd⟩ := on_keyval_ok_inv st st' k kv h
  exact ⟨_, hd⟩

theorem on_keyval_ne_none (st : TomlParser) (k : Str) (kv : TableKeyValue)
    (h : PathOk st) : st.on_keyval k kv ≠ none := by
  obtain ⟨tbl, hd⟩ := h
  by_cases hc : containsKey tbl k = true
  · rw [on_keyval_dup st k kv tbl hd hc]; simp
  · rw [on_keyval_ok st k kv tbl hd (by simpa using hc)]; simp

theorem on_table_ok_pathOk (st st' : TomlParser) (path : List Str) (suf : Str)
    (h : st.on_table path suf = Except.ok st') : PathOk st' := by
  simp only [TomlParser.on_table] at h
  cases he : ensureTablePath st.document.root path ⟨st.document.trailing, suf⟩ with
  | error e => rw [he] at h; simp at h
  | ok root' =>
      rw [he] at h
      simp only [Except.ok.injEq] at h
      subst h
      obtain ⟨w, hw⟩ := ensureTablePath_descend path _ _ _ he
      exact ⟨w, hw⟩

theorem pathOk_on_ws (st : TomlParser) (w : Str) (h : PathOk st) : PathOk (st.on_ws w) := h

theorem pathOk_on_comment (st : TomlParser) (c e : Str) (h : PathOk st) :
    PathOk (st.on_comment c e) := h

/-! ## Helper lemmas: sub-parsers only consume a prefix of their input -/

theorem ws_snd_suffix (s : Str) : (ws s).2 <:+ s := List.dropWhile_suffix _

theorem comment_suffix (s c rest : Str) (h : comment s = some (c, rest)) : rest <:+ s := by
  cases s with
  | nil => simp [comment] at h
  | cons a as =>
      by_cases ha : a = '#'
      · subst ha
        simp only [comment, if_pos, Option.some.injEq, Prod.mk.injEq] at h
        obtain ⟨-, h2⟩ := h
        rw [← h2]
        exact (List.dropWhile_suffix _).trans (List.suffix_cons _ _)
      · simp [comment, ha] at h

theorem line_ending_suffix (s e rest : Str) (h : line_ending s = some (e, rest)) :
    rest <:+ s := by
  cases s with
  | nil =>
      simp only [line_ending, Option.some.injEq, Prod.mk.injEq] at h
      obtain ⟨-, h2⟩ := h
      rw [← h2]
  | cons a as =>
      by_cases ha : a = '\n'
      · subst ha
        simp only [line_ending, if_pos, Option.some.injEq, Prod.mk.injEq] at h
        obtain ⟨-, h2⟩ := h
        rw [← h2]
        exact List.suffix_cons _ _
      · simp [line_ending, ha] at h

theorem line_trailing_suffix (s t rest : Str) (h : line_trailing s = some (t, rest)) :
    rest <:+ s := by
  simp only [line_trailing] at h
  cases hc : comment ((ws s).2) with
  | some pr =>
      obtain ⟨c, r2⟩ := pr
      simp only [hc] at h
      cases hle : line_ending r2 with
      | some pe =>
          obtain ⟨e, r⟩ := pe
          simp only [hle, Option.some.injEq, Prod.mk.injEq] at h
          obtain ⟨-, h2⟩ := h
          rw [← h2]
          exact ((line_ending_suffix _ _ _ hle).trans (comment_suffix _ _ _ hc)).trans
            (ws_snd_suffix s)
      | none => simp only [hle] at h; exact Option.noConfusion h
  | none =>
      simp only [hc] at h
      cases hle : line_ending ((ws s).2) with
      | some pe =>
          obtain ⟨e, r⟩ := pe
          simp only [hle, Option.some.injEq, Prod.mk.injEq] at h
          obtain ⟨-, h2⟩ := h
          rw [← h2]
          exact (line_ending_suffix _ _ _ hle).trans (ws_snd_suffix s)
      | none => simp only [hle] at h; exact Option.noConfusion h

theorem key_suffix (s raw k rest : Str) (h : key s = some ((raw, k), rest)) :
    rest <:+ s := by
  simp only [key] at h
  by_cases he : (s.takeWhile isBareKeyChar).isEmpty
  · simp [he] at h
  · simp only [he, Bool.false_eq_true, if_false, Option.some.injEq, Prod.mk.injEq] at h
    obtain ⟨-, h2⟩ := h
    rw [← h2]
    exact List.dropWhile_suffix _

theorem value_suffix (s : Str) (v : TomlValue) (rest : Str)
    (h : value s = some (v, rest)) : rest <:+ s := by
  simp only [value] at h
  by_cases he : (s.takeWhile Char.isDigit).isEmpty
  · simp [he] at h
  · simp only [he, Bool.false_eq_true, if_false, Option.some.injEq, Prod.mk.injEq] at h
    obtain ⟨-, h2⟩ := h
    rw [← h2]
    exact List.dropWhile_suffix _

theorem parse_keyval_suffix (s k : Str) (kv : TableKeyValue) (rest : Str)
    (h : parse_keyval s = some ((k, kv), rest)) : rest <:+ s := by
  simp only [parse_keyval] at h
  cases hk : key s with
  | none => rw [hk] at h; simp at h
  | some pr =>
      obtain ⟨⟨raw, k'⟩, r1⟩ := pr
      simp only [hk] at h
      cases hw : (ws r1).2 with
      | nil => simp only [hw] at h; exact Option.noConfusion h
      | cons c r3 =>
          simp only [hw] at h
          by_cases hc : c = '='
          · cases hv : value ((ws r3).2) with
            | none => simp [hc, hv] at h
            | some pv =>
                obtain ⟨v, r5⟩ := pv
                cases hlt : line_trailing r5 with
                | none => simp [hc, hv, hlt] at h
                | some pl =>
                    obtain ⟨suf, rest'⟩ := pl
                    simp only [hc, if_true, hv, hlt, Option.some.injEq,
                      Prod.mk.injEq] at h
                    obtain ⟨-, h2⟩ := h
                    rw [← h2]
                    have s1 : rest' <:+ r5 := line_trailing_suffix _ _ _ hlt
                    have s2 : r5 <:+ (ws r3).2 := value_suffix _ _ _ hv
                    have s3 : (ws r3).2 <:+ c :: r3 :=
                      (ws_snd_suffix r3).trans (List.suffix_cons _ _)
                    have s4 : c :: r3 <:+ r1 := hw ▸ ws_snd_suffix r1
                    exact (((s1.trans s2).trans s3).trans s4).trans (key_suffix _ _ _ _ hk)
          · simp [hc] at h

theorem parseDotKeys_suffix (fuel : Nat) :
    ∀ s ks rest, parseDotKeys fuel s = some (ks, rest) → rest <:+ s := by
  induction fuel with
  | zero => intro s ks rest h; simp [parseDotKeys] at h
  | succ n ih =>
      intro s ks rest h
      simp only [parseDotKeys] at h
      cases hk : key s with
      | none => rw [hk] at h; simp at h
      | some pr =>
          obtain ⟨⟨raw, k'⟩, r1⟩ := pr
          simp only [hk] at h
          cases hw : (ws r1).2 with
          | nil =>
              simp only [hw, Option.some.injEq, Prod.mk.injEq] at h
              obtain ⟨-, h2⟩ := h
              rw [← h2]
              exact List.nil_suffix
          | cons c r3 =>
              simp only [hw] at h
              by_cases hc : c = '.'
              · cases hd : parseDotKeys n ((ws r3).2) with
                | none => simp [hc, hd] at h
                | some pd =>
                    obtain ⟨ks', rest'⟩ := pd
                    simp only [hc, if_true, hd, Option.some.injEq, Prod.mk.injEq] at h
                    obtain ⟨-, h2⟩ := h
                    rw [← h2]
                    have s1 : rest' <:+ (ws r3).2 := ih _ _ _ hd
                    have s2 : (ws r3).2 <:+ c :: r3 :=
                      (ws_snd_suffix r3).trans (List.suffix_cons _ _)
                    have s3 : c :: r3 <:+ r1 := hw ▸ ws_snd_suffix r1
                    exact ((s1.trans s2).trans s3).trans (key_suffix _ _ _ _ hk)
              · simp only [hc, if_false, Option.some.injEq, Prod.mk.injEq] at h
                obtain ⟨-, h2⟩ := h
                rw [← h2]
                have s3 : c :: r3 <:+ r1 := hw ▸ ws_snd_suffix r1
                exact s3.trans (key_suffix _ _ _ _ hk)

theorem parseTableHeader_suffix (s : Str) (path : List Str) (suf rest : Str)
    (h : parseTableHeader s = some (path, suf, rest)) : rest <:+ s := by
  cases s with
  | nil => simp [parseTableHeader] at h
  | cons c r1 =>
      simp only [parseTableHeader] at h
      by_cases hc : c = '['
      · rw [if_pos hc] at h
        cases hd : parseDotKeys (((ws r1).2).length + 1) ((ws r1).2) with
        | none => simp only [hd] at h; exact Option.noConfusion h
        | some pd =>
            obtain ⟨ks, r3⟩ := pd
            simp only [hd] at h
            cases r3 with
            | nil => simp at h
            | cons c2 r4 =>
                by_cases hc2 : c2 = ']'
                · cases hlt : line_trailing r4 with
                  | none => simp [hc2, hlt] at h
                  | some pl =>
                      obtain ⟨suf', rest'⟩ := pl
                      simp only [hc2, if_true, hlt, Option.some.injEq,
                        Prod.mk.injEq] at h
                      obtain ⟨-, -, h2⟩ := h
                      rw [← h2]
                      have s1 : rest' <:+ r4 := line_trailing_suffix _ _ _ hlt
                      have s2 : r4 <:+ c2 :: r4 := List.suffix_cons _ _
                      have s3 : c2 :: r4 <:+ (ws r1).2 :=
                        parseDotKeys_suffix _ _ _ _ hd
                      have s4 : (ws r1).2 <:+ r1 := ws_snd_suffix r1
                      exact (((s1.trans s2).trans s3).trans s4).trans
                        (List.suffix_cons _ _)
                · simp [hc2] at h
      · simp [hc] at h

/-! ## Helper lemmas: the expression step and the loop -/

theorem expr_step_cases (st : TomlParser) (s : Str) :
    expr_step st s = StepOut.noMatch ∨
    (∃ r e, expr_step st s = StepOut.stepFail r e) ∨
    (∃ st' r, expr_step st s = StepOut.stepOk st' r ∧ (PathOk st → PathOk st') ∧ r <:+ s) ∨
    (expr_step st s = StepOut.stepPanic ∧ ∃ k kv, st.on_keyval k kv = none) := by
  cases s with
  | nil => exact Or.inl rfl
  | cons c cs =>
      by_cases h1 : c = '#'
      · subst h1
        cases hc : comment ('#' :: cs) with
        | none =>
            exact Or.inr (Or.inl ⟨'#' :: cs, PErr.syn, by simp [expr_step, hc]⟩)
        | some pr =>
            obtain ⟨com, r1⟩ := pr
            cases hle : line_ending r1 with
            | none =>
                exact Or.inr (Or.inl ⟨r1, PErr.syn, by simp [expr_step, hc, hle]⟩)
            | some pe =>
                obtain ⟨e, r2⟩ := pe
                exact Or.inr (Or.inr (Or.inl ⟨st.on_comment com e, r2,
                  by simp [expr_step, hc, hle], pathOk_on_comment st com e,
                  (line_ending_suffix _ _ _ hle).trans (comment_suffix _ _ _ hc)⟩))
      · by_cases h2 : c = '\n'
        · subst h2
          exact Or.inr (Or.inr (Or.inl ⟨st.on_ws ['\n'], cs,
            by simp [expr_step, h1], pathOk_on_ws st ['\n'],
            List.suffix_cons _ _⟩))
        · by_cases h3 : c = '['
          · subst h3
            cases ht : parseTableHeader ('[' :: cs) with
            | none =>
                exact Or.inr (Or.inl ⟨'[' :: cs, PErr.syn,
                  by simp [expr_step, h1, h2, ht]⟩)
            | some tr =>
                obtain ⟨path, suf, rest⟩ := tr
                cases hot : st.on_table path suf with
                | error e =>
                    exact Or.inr (Or.inl ⟨rest, PErr.cust e,
                      by simp [expr_step, h1, h2, ht, hot]⟩)
                | ok st' =>
                    exact Or.inr (Or.inr (Or.inl ⟨st', rest,
                      by simp [expr_step, h1, h2, ht, hot],
                      fun _ => on_table_ok_pathOk st st' path suf hot,
                      parseTableHeader_suffix _ _ _ _ ht⟩))
          · by_cases h4 : isBareKeyChar c = true
            · cases hk : parse_keyval (c :: cs) with
              | none =>
                  exact Or.inr (Or.inl ⟨c :: cs, PErr.syn,
                    by simp [expr_step, h1, h2, h3, h4, hk]⟩)
              | some pr =>
                  obtain ⟨⟨k, kv⟩, rest⟩ := pr
                  cases ho : st.on_keyval k kv with
                  | none =>
                      exact Or.inr (Or.inr (Or.inr
                        ⟨by simp [expr_step, h1, h2, h3, h4, hk, ho], k, kv, ho⟩))
                  | some res =>
                      cases res with
                      | error e =>
                          exact Or.inr (Or.inl ⟨rest, PErr.cust e,
                            by simp [expr_step, h1, h2, h3, h4, hk, ho]⟩)
                      | ok st' =>
                          exact Or.inr (Or.inr (Or.inl ⟨st', rest,
                            by simp [expr_step, h1, h2, h3, h4, hk, ho],
                            fun _ => on_keyval_pathOk st st' k kv ho,
                            parse_keyval_suffix _ _ _ _ hk⟩))
            · exact Or.inl (by simp [expr_step, h1, h2, h3, h4])

theorem expr_step_no_panic (st : TomlParser) (s : Str) (h : PathOk st) :
    expr_step st s ≠ StepOut.stepPanic := by
  rcases expr_step_cases st s with he | ⟨r, e, he⟩ | ⟨st', r, he, -, -⟩ | ⟨-, k, kv, ho⟩
  · rw [he]; simp
  · rw [he]; simp
  · rw [he]; simp
  · exact absurd ho (on_keyval_ne_none st k kv h)

theorem expr_step_pathOk_of_stepOk (st st' : TomlParser) (s r : Str) (h : PathOk st)
    (he : expr_step st s = StepOut.stepOk st' r) : PathOk st' := by
  rcases expr_step_cases st s with h0 | ⟨r', e', h0⟩ | ⟨st'', r'', h0, hp, -⟩ | ⟨h0, -⟩
  · rw [he] at h0; cases h0
  · rw [he] at h0; cases h0
  · rw [he] at h0
    obtain ⟨h1, h2⟩ := StepOut.stepOk.inj h0
    subst h1
    exact hp h
  · rw [he] at h0; cases h0

theorem expr_step_suffix_of_stepOk (st st' : TomlParser) (s r : Str)
    (he : expr_step st s = StepOut.stepOk st' r) : r <:+ s := by
  rcases expr_step_cases st s with h0 | ⟨r', e', h0⟩ | ⟨st'', r'', h0, -, hs⟩ | ⟨h0, -⟩
  · rw [he] at h0; cases h0
  · rw [he] at h0; cases h0
  · rw [he] at h0
    obtain ⟨-, h2⟩ := StepOut.stepOk.inj h0
    exact h2 ▸ hs
  · rw [he] at h0; cases h0

theorem run_exprs_no_panic (fuel : Nat) :
    ∀ st s cnt, PathOk st → run_exprs fuel st s cnt ≠ LoopOut.panicL := by
  induction fuel with
  | zero => intro st s cnt h heq; simp [run_exprs] at heq
  | succ n ih =>
      intro st s cnt h heq
      simp only [run_exprs] at heq
      cases he : expr_step st s with
      | noMatch =>
          rw [he] at heq
          by_cases hc : cnt = 0 <;> simp [hc] at heq
      | stepPanic => exact expr_step_no_panic st s h he
      | stepFail r e => rw [he] at heq; simp at heq
      | stepOk st' r =>
          rw [he] at heq
          exact ih _ _ _ (pathOk_on_ws _ _ (expr_step_pathOk_of_stepOk st st' s r h he)) heq

theorem run_exprs_okL_suffix (fuel : Nat) :
    ∀ st s cnt st2 rest, run_exprs fuel st s cnt = LoopOut.okL st2 rest → rest <:+ s := by
  induction fuel with
  | zero => intro st s cnt st2 rest h; simp [run_exprs] at h
  | succ n ih =>
      intro st s cnt st2 rest h
      simp only [run_exprs] at h
      cases he : expr_step st s with
      | noMatch =>
          rw [he] at h
          by_cases hc : cnt = 0
          · simp [hc] at h
          · simp only [hc, if_false, LoopOut.okL.injEq] at h
            obtain ⟨-, h2⟩ := h
            rw [← h2]
      | stepPanic => rw [he] at h; simp at h
      | stepFail r e => rw [he] at h; simp at h
      | stepOk st' r =>
          rw [he] at h
          have h1 : rest <:+ (ws r).2 := ih _ _ _ _ _ h
          exact (h1.trans (ws_snd_suffix r)).trans
            (expr_step_suffix_of_stepOk st st' s r he)

/-! ## Helper lemmas: decoration-only input -/

theorem triviaRun_true_eq (cs : Str) :
    triviaRun true cs = triviaRun false (cs.dropWhile (fun x => x != '\n')) := by
  induction cs with
  | nil => rfl
  | cons c cs ih =>
      by_cases hc : c = '\n'
      · subst hc
        simp [triviaRun, isWsChar, List.dropWhile_cons]
      · have hb : (c != '\n') = true := by simpa using hc
        simp only [triviaRun, hc, if_false, List.dropWhile_cons, hb,
          eq_self_iff_true, if_true]
        exact ih

theorem triviaRun_false_dropWhile_ws (s : Str) (h : triviaRun false s = true) :
    triviaRun false (s.dropWhile isWsChar) = true := by
  induction s with
  | nil => simpa using h
  | cons c cs ih =>
      by_cases hc : isWsChar c = true
      · rw [List.dropWhile_cons, if_pos hc]
        exact ih (by simpa [triviaRun, hc] using h)
      · rw [List.dropWhile_cons, if_neg (by simpa using hc)]
        exact h

theorem dropWhile_head_false (p : Char → Bool) (s : Str) (c : Char) (cs : Str)
    (h : s.dropWhile p = c :: cs) : p c = false := by
  induction s with
  | nil => simp at h
  | cons a as ih =>
      rw [List.dropWhile_cons] at h
      by_cases ha : p a = true
      · rw [if_pos ha] at h; exact ih h
      · rw [if_neg (by simpa using ha)] at h
        obtain ⟨h1, -⟩ := List.cons.inj h
        subst h1
        simpa using ha

theorem run_exprs_trivia (fuel : Nat) :
    ∀ s st cnt, triviaRun false s = true →
      (s = [] → cnt ≠ 0) →
      (∀ c cs, s = c :: cs → isWsChar c = false) →
      s.length < fuel →
      run_exprs fuel st s cnt =
        LoopOut.okL { st with document :=
          { st.document with trailing := st.document.trailing ++ s } } [] := by
  induction fuel with
  | zero => intro s st cnt _ _ _ hlen; omega
  | succ n ih =>
      intro s st cnt htr hne hhd hlen
      cases s with
      | nil =>
          have hcnt := hne rfl
          simp only [run_exprs, expr_step]
          rw [if_neg hcnt]
          simp
      | cons c cs =>
          have hws : isWsChar c = false := hhd c cs rfl
          have hlen2 : cs.length < n := by
            simp only [List.length_cons] at hlen; omega
          by_cases hnl : c = '\n'
          · subst hnl
            have hstep : expr_step st ('\n' :: cs) =
                StepOut.stepOk (st.on_ws ['\n']) cs := by
              simp +decide [expr_step]
            simp only [run_exprs, hstep]
            have htr1 : triviaRun false cs = true := by
              simpa [triviaRun, isWsChar] using htr
            have hlenD : ((ws cs).2).length ≤ cs.length :=
              (List.dropWhile_suffix isWsChar).length_le
            rw [ih ((ws cs).2) _ (cnt + 1)
              (triviaRun_false_dropWhile_ws cs htr1)
              (fun _ => Nat.succ_ne_zero cnt)
              (fun c' cs' hh => dropWhile_head_false isWsChar cs c' cs' hh)
              (by omega)]
            have hT : ((st.document.trailing ++ ['\n']) ++ (ws cs).1) ++ (ws cs).2 =
                st.document.trailing ++ ('\n' :: cs) := by
              simp [ws, List.append_assoc, List.takeWhile_append_dropWhile]
            exact congrArg (fun T => LoopOut.okL { st with document :=
              { st.document with trailing := T } } []) hT
          · by_cases hcm : c = '#'
            · subst hcm
              have hcmt : comment ('#' :: cs) =
                  some ('#' :: cs.takeWhile (fun x => x != '\n'),
                        cs.dropWhile (fun x => x != '\n')) := by
                simp [comment]
              have htr1 : triviaRun true cs = true := by
                simpa +decide [triviaRun, isWsChar] using htr
              have htr2 : triviaRun false (cs.dropWhile (fun x => x != '\n')) = true := by
                rw [← triviaRun_true_eq]; exact htr1
              cases hr1 : cs.dropWhile (fun x => x != '\n') with
              | nil =>
                  have hstep : expr_step st ('#' :: cs) =
                      StepOut.stepOk
                        (st.on_comment ('#' :: cs.takeWhile (fun x => x != '\n')) []) [] := by
                    simp [expr_step, hcmt, hr1, line_ending]
                  simp only [run_exprs, hstep]
                  rw [ih ((ws ([] : Str)).2) _ (cnt + 1)
                    (by simp [ws, triviaRun])
                    (fun _ => Nat.succ_ne_zero cnt)
                    (by intro c' cs' hh; simp [ws] at hh)
                    (by simp [ws]; omega)]
                  have hcs : cs.takeWhile (fun x => x != '\n') = cs := by
                    conv_rhs => rw [← List.takeWhile_append_dropWhile
                      (fun x => x != '\n') cs, hr1]
                    simp
                  have hT : (((st.document.trailing ++
                        ('#' :: cs.takeWhile (fun x => x != '\n')) ++ []) ++
                        (ws ([] : Str)).1) ++ (ws ([] : Str)).2) =
                      st.document.trailing ++ ('#' :: cs) := by
                    simp [ws, hcs]
                  exact congrArg (fun T => LoopOut.okL { st with document :=
                    { st.document with trailing := T } } []) hT
              | cons c2 r2 =>
                  have hc2 : c2 = '\n' := by
                    have := dropWhile_head_false (fun x => x != '\n') cs c2 r2 hr1
                    simpa using this
                  subst hc2
                  have hstep : expr_step st ('#' :: cs) =
                      StepOut.stepOk
                        (st.on_comment ('#' :: cs.takeWhile (fun x => x != '\n')) ['\n'])
                        r2 := by
                    simp [expr_step, hcmt, hr1, line_ending]
                  simp only [run_exprs, hstep]
                  have htr3 : triviaRun false r2 = true := by
                    rw [hr1] at htr2
                    simpa +decide [triviaRun, isWsChar] using htr2
                  have hlen3 : r2.length < n := by
                    have hsfx : ('\n' :: r2).length ≤ cs.length := by
                      rw [← hr1]
                      exact (List.dropWhile_suffix _).length_le
                    simp only [List.length_cons] at hsfx
                    omega
                  have hlenD : ((ws r2).2).length ≤ r2.length :=
                    (List.dropWhile_suffix isWsChar).length_le
                  rw [ih ((ws r2).2) _ (cnt + 1)
                    (triviaRun_false_dropWhile_ws r2 htr3)
                    (fun _ => Nat.succ_ne_zero cnt)
                    (fun c' cs' hh => dropWhile_head_false isWsChar r2 c' cs' hh)
                    (by omega)]
                  have hcs : cs.takeWhile (fun x => x != '\n') ++ ('\n' :: r2) = cs := by
                    conv_rhs => rw [← List.takeWhile_append_dropWhile
                      (fun x => x != '\n') cs, hr1]
                  have hT : (((st.document.trailing ++
                        ('#' :: cs.takeWhile (fun x => x != '\n')) ++ ['\n']) ++
                        (ws r2).1) ++ (ws r2).2) =
                      st.document.trailing ++ ('#' :: cs) := by
                    conv_rhs => rw [← hcs]
                    simp [ws, List.append_assoc, List.takeWhile_append_dropWhile]
                  exact congrArg (fun T => LoopOut.okL { st with document :=
                    { st.document with trailing := T } } []) hT
            · exfalso
              rw [triviaRun, if_neg (by simp [hws]), if_neg hnl, if_neg hcm] at htr
              exact Bool.false_ne_true htr

theorem pathOk_initState (s : Str) : PathOk (initState s) := ⟨[], rfl⟩

theorem parse_no_panic (s : Str) : parse s ≠ ParseOutcome.panicked := by
  intro heq
  simp only [parse] at heq
  cases hd : s.dropWhile isWsChar with
  | nil => rw [hd] at heq; simp at heq
  | cons c cs =>
      rw [hd] at heq
      cases hl : run_exprs ((c :: cs).length + 1) (initState s) (c :: cs) 0 with
      | panicL => exact run_exprs_no_panic _ _ _ _ (pathOk_initState s) hl
      | failL r e => rw [hl] at heq; simp at heq
      | okL st2 rest =>
          rw [hl] at heq
          by_cases hre : rest.isEmpty <;> simp [hre] at heq


/-! ## The claims -/

/-- C1: whenever the key/value insertion handler receives a key already
present (exact string match) in the table resolved by the active table
path, it returns a `DuplicateKey` semantic error identifying the key — no
insertion or overwrite happens (no new state is produced); in particular,
parsing `"a = 1\na = 2\n"` fails with a duplicate-key error for `a`. -/
theorem C1_duplicate_key_same_table :
    (∀ (st : TomlParser) (k : Str) (kv : TableKeyValue) (tbl : Table),
        descend_path st.document.root st.current_table_path = some tbl →
        containsKey tbl k = true →
        st.on_keyval k kv =
          some (Except.error (CustomError.duplicateKey k ("<unknown>".toList)))) ∧
    parse ("a = 1\na = 2\n".toList) =
      ParseOutcome.err (TomlError.customAt 12
        (CustomError.duplicateKey ("a".toList) ("<unknown>".toList))) :=
  ⟨fun st k kv tbl hd hc => on_keyval_dup st k kv tbl hd hc, rfl⟩

theorem C1_duplicate_key_same_table_witness :
    (⟨⟨[("a".toList, ⟨⟨[], []⟩, "a".toList⟩, Item.none)], []⟩, []⟩ : TomlParser).on_keyval
        ("a".toList) ⟨⟨⟨[], []⟩, "a".toList⟩, Item.none⟩ =
      some (Except.error (CustomError.duplicateKey ("a".toList) ("<unknown>".toList))) :=
  C1_duplicate_key_same_table.1 _ ("a".toList) _
    [("a".toList, ⟨⟨[], []⟩, "a".toList⟩, Item.none)] rfl rfl

/-- C2: if the grammar loop of `parse` terminates successfully but input
remains unconsumed, `parse` returns the residual-input error positioned at
the first unconsumed character (the remainder is a suffix of the input, so
the position offset addresses exactly its first character) rather than a
`Document`. -/
theorem C2_residual_input_error (s : Str) (st2 : TomlParser) (rest : Str)
    (h0 : s.dropWhile isWsChar ≠ [])
    (h1 : run_exprs ((s.dropWhile isWsChar).length + 1) (initState s)
            (s.dropWhile isWsChar) 0 = LoopOut.okL st2 rest)
    (h2 : rest ≠ []) :
    parse s = ParseOutcome.err (TomlError.unparsed (s.length - rest.length)) ∧
      rest <:+ s := by
  constructor
  · simp only [parse]
    cases hd : s.dropWhile isWsChar with
    | nil => exact absurd hd h0
    | cons c cs =>
        rw [hd] at h1
        have hre : rest.isEmpty = false := by
          cases rest with
          | nil => exact absurd rfl h2
          | cons a as => rfl
        simp only [h1, hre, Bool.false_eq_true, if_false]
  · exact (run_exprs_okL_suffix _ _ _ _ _ _ h1).trans (List.dropWhile_suffix isWsChar)

theorem C2_residual_input_error_witness :
    parse ("a = 1\n!".toList) = ParseOutcome.err (TomlError.unparsed 6) ∧
      "!".toList <:+ "a = 1\n!".toList :=
  C2_residual_input_error ("a = 1\n!".toList)
    ⟨⟨[("a".toList, ⟨⟨[], " ".toList⟩, "a".toList⟩,
        Item.value (decorated (TomlValue.int 1) (" ".toList) ("\n".toList)))], []⟩, []⟩
    ("!".toList) (by decide) rfl (by decide)

/-- C3: the insertion handler takes the accumulated decoration buffer
(clearing it to empty) and prepends it to the key's leading decoration
captured during key parsing, so the inserted entry's leading decoration is
buffer text followed by the key's own decoration, in source order; in
particular `"\n\n# c\nkey = 1\n"` yields one entry `key` with leading
decoration exactly `"\n\n# c\n"`. -/
theorem C3_decoration_prepend :
    (∀ (st st' : TomlParser) (k : Str) (kv : TableKeyValue),
        st.on_keyval k kv = some (Except.ok st') →
        st'.document.trailing = [] ∧
        ∃ tbl, descend_path st.document.root st.current_table_path = some tbl ∧
          descend_path st'.document.root st'.current_table_path =
            some (tbl ++ [(k, { decor := { pre := st.document.trailing ++ kv.key.decor.pre,
                                           suf := kv.key.decor.suf },
                                raw := kv.key.raw }, kv.value)])) ∧
    parse ("\n\n# c\nkey = 1\n".toList) =
      ParseOutcome.ok ⟨[("key".toList,
        { decor := { pre := "\n\n# c\n".toList, suf := " ".toList }, raw := "key".toList },
        Item.value (decorated (TomlValue.int 1) (" ".toList) ("\n".toList)))], []⟩ :=
  ⟨fun st st' k kv h => by
      obtain ⟨h1, -, tbl, h3, -, h5⟩ := on_keyval_ok_inv st st' k kv h
      exact ⟨h1, tbl, h3, h5⟩,
   rfl⟩

theorem C3_decoration_prepend_witness :
    (⟨⟨[("k".toList, ⟨⟨"pq".toList, "s".toList⟩, "k".toList⟩, Item.none)], []⟩, []⟩ :
        TomlParser).document.trailing = [] ∧
    ∃ tbl, descend_path ([] : Table) ([] : List Str) = some tbl ∧
      descend_path [("k".toList, ⟨⟨"pq".toList, "s".toList⟩, "k".toList⟩, Item.none)]
          ([] : List Str) =
        some (tbl ++ [("k".toList,
          { decor := { pre := "pq".toList, suf := "s".toList }, raw := "k".toList },
          Item.none)]) :=
  C3_decoration_prepend.1 ⟨⟨[], "p".toList⟩, []⟩
    ⟨⟨[("k".toList, ⟨⟨"pq".toList, "s".toList⟩, "k".toList⟩, Item.none)], []⟩, []⟩
    ("k".toList) ⟨⟨⟨"q".toList, "s".toList⟩, "k".toList⟩, Item.none⟩ rfl

/-- C4: the duplicate-key check is scoped to the single table resolved by
the active table path — a key absent from that table is inserted
successfully regardless of equal keys elsewhere; in particular
`"a = 1\n[t]\na = 2\n"` succeeds with one `a` at the root and a distinct
`a` under table `t`. -/
theorem C4_scoped_duplicate_check :
    (∀ (st : TomlParser) (k : Str) (kv : TableKeyValue) (tbl : Table),
        descend_path st.document.root st.current_table_path = some tbl →
        containsKey tbl k = false →
        ∃ st', st.on_keyval k kv = some (Except.ok st')) ∧
    parse ("a = 1\n[t]\na = 2\n".toList) =
      ParseOutcome.ok ⟨[
        ("a".toList, { decor := { pre := [], suf := " ".toList }, raw := "a".toList },
          Item.value (decorated (TomlValue.int 1) (" ".toList) ("\n".toList))),
        ("t".toList, { decor := { pre := [], suf := "\n".toList }, raw := "t".toList },
          Item.table [("a".toList,
            { decor := { pre := [], suf := " ".toList }, raw := "a".toList },
            Item.value (decorated (TomlValue.int 2) (" ".toList) ("\n".toList)))])], []⟩ :=
  ⟨fun st k kv tbl hd hc => ⟨_, on_keyval_ok st k kv tbl hd hc⟩, rfl⟩

theorem C4_scoped_duplicate_check_witness :
    ∃ st', (⟨⟨[("a".toList, ⟨⟨[], []⟩, "a".toList⟩, Item.none),
               ("t".toList, ⟨⟨[], []⟩, "t".toList⟩, Item.table [])], []⟩,
             ["t".toList]⟩ : TomlParser).on_keyval
        ("a".toList) ⟨⟨⟨[], []⟩, "a".toList⟩, Item.none⟩ = some (Except.ok st') :=
  C4_scoped_duplicate_check.1 _ ("a".toList) _ [] rfl rfl

/-- C5: an input consisting only of whitespace, comments and line
terminators parses successfully to a document with no entries whose
trailing field is exactly the input text. -/
theorem C5_trivia_only_trailing (s : Str) (h : triviaOnly s = true) :
    parse s = ParseOutcome.ok ⟨[], s⟩ := by
  simp only [parse]
  cases hd : s.dropWhile isWsChar with
  | nil =>
      have hs : s.takeWhile isWsChar = s := by
        conv_rhs => rw [← List.takeWhile_append_dropWhile isWsChar s, hd]
        simp
      simp [initState, TomlParser.on_ws, hs]
  | cons c cs =>
      have htr : triviaRun false (c :: cs) = true := by
        rw [← hd]
        exact triviaRun_false_dropWhile_ws s h
      have hhd : ∀ c' cs', (c :: cs : Str) = c' :: cs' → isWsChar c' = false := by
        intro c' cs' hh
        obtain ⟨h1, -⟩ := List.cons.inj hh
        rw [← h1]
        exact dropWhile_head_false isWsChar s c cs hd
      rw [run_exprs_trivia ((c :: cs).length + 1) (c :: cs) (initState s) 0 htr
        (fun hh => List.noConfusion hh) hhd (by simp)]
      have hT : s.takeWhile isWsChar ++ (c :: cs) = s := by
        rw [← hd, List.takeWhile_append_dropWhile]
      simp [initState, TomlParser.on_ws, hT]

theorem C5_trivia_only_trailing_witness :
    triviaOnly ("# trailing\n\n".toList) = true ∧
      parse ("# trailing\n\n".toList) =
        ParseOutcome.ok ⟨[], "# trailing\n\n".toList⟩ :=
  ⟨rfl, C5_trivia_only_trailing _ rfl⟩

/-- C6: the empty input parses to an empty document: no entries in the
root table and an empty trailing decoration. -/
theorem C6_empty_input : parse ("".toList) = ParseOutcome.ok ⟨[], "".toList⟩ := rfl

/-- C7: every successful run of the key/value expression parser factors
through the key, separator, value and line-trailing sub-parsers, and the
produced entry's key `Repr` has an empty leading decoration and the
whitespace before the separator as trailing decoration, while the value
carries the whitespace after the separator as leading decoration and the
captured end-of-line text (terminator included) as trailing decoration. -/
theorem C7_keyval_decorations (s k : Str) (kv : TableKeyValue) (rest : Str)
    (h : parse_keyval s = some ((k, kv), rest)) :
    ∃ raw r1 r3 v r5 suf,
      key s = some ((raw, k), r1) ∧
      (ws r1).2 = '=' :: r3 ∧
      value ((ws r3).2) = some (v, r5) ∧
      line_trailing r5 = some (suf, rest) ∧
      kv = { key := { decor := { pre := [], suf := (ws r1).1 }, raw := raw },
             value := Item.value (decorated v ((ws r3).1) suf) } := by
  simp only [parse_keyval] at h
  cases hk : key s with
  | none => rw [hk] at h; exact Option.noConfusion h
  | some pr =>
      obtain ⟨⟨raw, k'⟩, r1⟩ := pr
      simp only [hk] at h
      cases hw : (ws r1).2 with
      | nil => simp only [hw] at h; exact Option.noConfusion h
      | cons c r3 =>
          simp only [hw] at h
          by_cases hc : c = '='
          · subst hc
            rw [if_pos rfl] at h
            cases hv : value ((ws r3).2) with
            | none => simp only [hv] at h; exact Option.noConfusion h
            | some pv =>
                obtain ⟨v, r5⟩ := pv
                simp only [hv] at h
                cases hlt : line_trailing r5 with
                | none => simp only [hlt] at h; exact Option.noConfusion h
                | some pl =>
                    obtain ⟨suf, rest'⟩ := pl
                    simp only [hlt, Option.some.injEq, Prod.mk.injEq] at h
                    obtain ⟨⟨hk1, hkv⟩, hrest⟩ := h
                    subst hk1
                    subst hrest
                    exact ⟨raw, r1, r3, v, r5, suf, rfl, hw, hv, hlt, hkv.symm⟩
          · rw [if_neg hc] at h
            exact Option.noConfusion h

theorem C7_keyval_decorations_witness :
    ∃ raw r1 r3 v r5 suf,
      key ("k = 1\n".toList) = some ((raw, "k".toList), r1) ∧
      (ws r1).2 = '=' :: r3 ∧
      value ((ws r3).2) = some (v, r5) ∧
      line_trailing r5 = some (suf, []) ∧
      ({ key := { decor := { pre := [], suf := " ".toList }, raw := "k".toList },
         value := Item.value (decorated (TomlValue.int 1) (" ".toList) ("\n".toList)) } :
          TableKeyValue) =
        { key := { decor := { pre := [], suf := (ws r1).1 }, raw := raw },
          value := Item.value (decorated v ((ws r3).1) suf) } :=
  C7_keyval_decorations ("k = 1\n".toList) ("k".toList)
    ⟨⟨⟨[], " ".toList⟩, "k".toList⟩,
      Item.value (decorated (TomlValue.int 1) (" ".toList) ("\n".toList))⟩ [] rfl

/-- C8: table-path resolution during key/value insertion is protected by
the invariant that table-header handling established the active path, so
the abort branch is unreachable through `parse` on any input; and when the
path is not backed by an existing structure, `on_keyval` aborts (modelled
as `none`) rather than returning a user-facing diagnostic. -/
theorem C8_path_resolution_invariant :
    (∀ s : Str, parse s ≠ ParseOutcome.panicked) ∧
    (∀ (st : TomlParser) (k : Str) (kv : TableKeyValue),
        descend_path st.document.root st.current_table_path = none →
        st.on_keyval k kv = none) :=
  ⟨parse_no_panic, fun st k kv h => on_keyval_none_of_descend_none st k kv h⟩

theorem C8_path_resolution_invariant_witness :
    parse ("a".toList) ≠ ParseOutcome.panicked ∧
      (⟨⟨[], []⟩, ["t".toList]⟩ : TomlParser).on_keyval ("a".toList)
          ⟨⟨⟨[], []⟩, "a".toList⟩, Item.none⟩ = none :=
  ⟨C8_path_resolution_invariant.1 _, C8_path_resolution_invariant.2 _ _ _ rfl⟩

/-- C9: every duplicate-key error produced by the insertion handler
carries the fixed placeholder string `"<unknown>"` as its table-name
field, never the true dotted path; only the key field identifies the
conflict. -/
theorem C9_dup_error_placeholder (st : TomlParser) (k : Str) (kv : TableKeyValue)
    (e : CustomError) (h : st.on_keyval k kv = some (Except.error e)) :
    e = CustomError.duplicateKey k ("<unknown>".toList) :=
  on_keyval_error_shape st k kv e h

theorem C9_dup_error_placeholder_witness :
    (⟨⟨[("a".toList, ⟨⟨[], []⟩, "a".toList⟩, Item.none)], []⟩, []⟩ : TomlParser).on_keyval
        ("a".toList) ⟨⟨⟨[], []⟩, "a".toList⟩, Item.none⟩ =
      some (Except.error (CustomError.duplicateKey ("a".toList) ("<unknown>".toList))) ∧
    CustomError.duplicateKey ("a".toList) ("<unknown>".toList) =
      CustomError.duplicateKey ("a".toList) ("<unknown>".toList) :=
  ⟨rfl, C9_dup_error_placeholder
    ⟨⟨[("a".toList, ⟨⟨[], []⟩, "a".toList⟩, Item.none)], []⟩, []⟩
    ("a".toList) ⟨⟨⟨[], []⟩, "a".toList⟩, Item.none⟩ _ rfl⟩

/-- C10: `parse` is deterministic — equal input texts yield identical
outcomes (the embedding is a pure function of the input). -/
theorem C10_parse_deterministic (s t : Str) (h : s = t) : parse s = parse t :=
  congrArg parse h

theorem C10_parse_deterministic_witness :
    parse ("a = 1\n".toList) = parse ("a = 1\n".toList) :=
  C10_parse_deterministic _ _ rfl

end TomlEd
